import Mathlib

/-!
# Verification of the trading-bot indicator and decision engine

A shallow embedding of the indicator computations and the decision engine of
the trading bot (file tradingbot.py), together with theorems settling the
specification claims about it.

Conventions of the embedding:

* Prices and indicator values are modelled as elements of an arbitrary linear
  ordered field; claims are stated at the instances used by the proofs
  (exact rationals where a witness must evaluate, reals where square roots
  occur).  Floating-point rounding is abstracted away.
* Column values that pandas leaves as NaN are modelled as `none` of an
  `Option` type; an arithmetic comparison against NaN is `false`, matching
  IEEE semantics as used by the Python code.
* Timestamps are modelled as integers (days), matching the use of
  day differences in the source.
-/

namespace TradingBot

/-! ## Strategy parameters (top of tradingbot.py) -/

def SHORT_EMA_WINDOW : ℕ := 13

def LONG_EMA_WINDOW : ℕ := 34

def RSI_WINDOW : ℕ := 14

def RSI_OVERBOUGHT : ℕ := 70

def RSI_OVERSOLD : ℕ := 30

def MACD_FAST : ℕ := 12

def MACD_SLOW : ℕ := 26

def MACD_SIGNAL : ℕ := 9

def TREND_LOOKBACK : ℕ := 90

def VOLATILITY_LOOKBACK : ℕ := 20

/-- STD_MULTIPLIER = 1.5 in the source. -/
def STD_MULTIPLIER : ℚ := 3 / 2

variable {F : Type} [LinearOrderedField F]

/-! ## Exponential moving averages

`Series.ewm(..., adjust=False).mean()` computes the recurrence
`y 0 = x 0`, `y (i+1) = a * x (i+1) + (1-a) * y i`.  For `span=w` pandas
uses `a = 2/(w+1)`; for `alpha=a` it uses `a` directly. -/

def ewm (a : F) (x : ℕ → F) : ℕ → F
  | 0 => x 0
  | i + 1 => a * x (i + 1) + (1 - a) * ewm a x i

/-- The smoothing factor pandas derives from a `span=w` argument. -/
def emaAlpha (w : ℕ) : F := 2 / ((w : F) + 1)

/-- Reading the close column of a series of bars by position
(0 as an irrelevant out-of-range default). -/
def closeAt (closes : List F) (i : ℕ) : F := closes.getD i 0

/-- Column Short_EMA: `Close.ewm(span=SHORT_EMA_WINDOW, adjust=False).mean()`. -/
def shortEMA (x : ℕ → F) : ℕ → F := ewm (emaAlpha SHORT_EMA_WINDOW) x

/-- Column Long_EMA: `Close.ewm(span=LONG_EMA_WINDOW, adjust=False).mean()`. -/
def longEMA (x : ℕ → F) : ℕ → F := ewm (emaAlpha LONG_EMA_WINDOW) x

/-! ## RSI (Wilder smoothing)

`delta = Close.diff()` is NaN at index 0; `delta.where(delta > 0, 0)` turns
that NaN into 0 (NaN > 0 is false), so the gain and loss series start with 0
and are `max (delta i) 0` resp. `max (-delta i) 0` afterwards. -/

def gainAt (x : ℕ → F) : ℕ → F
  | 0 => 0
  | j + 1 => max (x (j + 1) - x j) 0

def lossAt (x : ℕ → F) : ℕ → F
  | 0 => 0
  | j + 1 => max (x j - x (j + 1)) 0

/-- Wilder average gain: `gain.ewm(alpha=1/RSI_WINDOW, adjust=False).mean()`. -/
def avgGain (x : ℕ → F) : ℕ → F := ewm (1 / (RSI_WINDOW : F)) (gainAt x)

/-- Wilder average loss: `loss.ewm(alpha=1/RSI_WINDOW, adjust=False).mean()`. -/
def avgLoss (x : ℕ → F) : ℕ → F := ewm (1 / (RSI_WINDOW : F)) (lossAt x)

/-- Column RSI: `100 - 100/(1 + avg_gain/avg_loss)` with pandas float
semantics for the division: when `avg_loss = 0` and `avg_gain` is nonzero the
quotient is an infinity and the expression collapses to `100`; when both are
zero the quotient is NaN and the whole value is NaN (modelled as `none`). -/
def rsiVal (x : ℕ → F) (i : ℕ) : Option F :=
  let g := avgGain x i
  let l := avgLoss x i
  if l = 0 then (if g = 0 then none else some 100)
  else some (100 - 100 / (1 + g / l))

/-! ## MACD -/

/-- Column MACD_Fast: `Close.ewm(span=MACD_FAST, adjust=False).mean()`. -/
def macdFast (x : ℕ → F) : ℕ → F := ewm (emaAlpha MACD_FAST) x

/-- Column MACD_Slow: `Close.ewm(span=MACD_SLOW, adjust=False).mean()`. -/
def macdSlow (x : ℕ → F) : ℕ → F := ewm (emaAlpha MACD_SLOW) x

/-- Column MACD_Line: `MACD_Fast - MACD_Slow`. -/
def macdLine (x : ℕ → F) (i : ℕ) : F := macdFast x i - macdSlow x i

/-- Column MACD_Signal: `MACD_Line.ewm(span=MACD_SIGNAL, adjust=False).mean()`,
the EMA of the MACD line series itself. -/
def macdSignal (x : ℕ → F) : ℕ → F := ewm (emaAlpha MACD_SIGNAL) (macdLine x)

/-- Column MACD_Hist: `MACD_Line - MACD_Signal`. -/
def macdHist (x : ℕ → F) (i : ℕ) : F := macdLine x i - macdSignal x i

/-! ## Rolling statistics and Bollinger bands (calculate_volatility)

`Close.rolling(window=lookback)` aggregates the trailing window of `lookback`
bars ending at and including the current index, and yields NaN while fewer
than `lookback` observations are available, i.e. at indices `< lookback - 1`.
`.std()` uses the sample convention (ddof = 1), so it is additionally NaN
when `lookback = 1`. -/

def sumRange (n : ℕ) (f : ℕ → F) : F := ((List.range n).map f).sum

/-- Trailing-window mean of the `lookback` values ending at index `i`. -/
def rollingMean (lookback : ℕ) (x : ℕ → F) (i : ℕ) : F :=
  sumRange lookback (fun j => x (i - j)) / (lookback : F)

/-- Trailing-window sample variance (ddof = 1) of the `lookback` values
ending at index `i`. -/
def rollingVar (lookback : ℕ) (x : ℕ → F) (i : ℕ) : F :=
  sumRange lookback (fun j => (x (i - j) - rollingMean lookback x i) ^ 2) /
    ((lookback : F) - 1)

/-- Indices at which `rolling(window=lookback).mean()` over a series of
length `len` is a number rather than NaN. -/
def meanDefined (lookback len i : ℕ) : Prop :=
  1 ≤ lookback ∧ lookback - 1 ≤ i ∧ i < len

instance (lookback len i : ℕ) : Decidable (meanDefined lookback len i) := by
  unfold meanDefined; infer_instance

/-- Indices at which `rolling(window=lookback).std()` over a series of
length `len` is a number rather than NaN (sample std needs two observations). -/
def volDefined (lookback len i : ℕ) : Prop :=
  2 ≤ lookback ∧ lookback - 1 ≤ i ∧ i < len

instance (lookback len i : ℕ) : Decidable (volDefined lookback len i) := by
  unfold volDefined; infer_instance

/-- Column Volatility: `Close.rolling(window=lookback).std()`. -/
noncomputable def volatilityVal (lookback : ℕ) (x : ℕ → ℝ) (len i : ℕ) : Option ℝ :=
  if volDefined lookback len i then some (Real.sqrt (rollingVar lookback x i)) else none

/-- Column Middle_Band: `Close.rolling(window=lookback).mean()`. -/
def middleBandVal (lookback : ℕ) (x : ℕ → F) (len i : ℕ) : Option F :=
  if meanDefined lookback len i then some (rollingMean lookback x i) else none

/-- Column Upper_Band: `Middle_Band + multiplier * Volatility`
(NaN whenever either operand is NaN). -/
noncomputable def upperBandVal (lookback : ℕ) (m : ℝ) (x : ℕ → ℝ) (len i : ℕ) :
    Option ℝ :=
  match middleBandVal lookback x len i, volatilityVal lookback x len i with
  | some mb, some v => some (mb + m * v)
  | _, _ => none

/-- Column Lower_Band: `Middle_Band - multiplier * Volatility`. -/
noncomputable def lowerBandVal (lookback : ℕ) (m : ℝ) (x : ℕ → ℝ) (len i : ℕ) :
    Option ℝ :=
  match middleBandVal lookback x len i, volatilityVal lookback x len i with
  | some mb, some v => some (mb - m * v)
  | _, _ => none

/-! ## Trend analyzer (analyze_trends) -/

/-- One regression segment produced by analyze_trends. -/
structure Trend (F : Type) where
  date : ℤ
  slope : F
  intercept : F

instance : Inhabited (Trend F) := ⟨⟨0, 0, 0⟩⟩

/-- Ordinary-least-squares slope of `ys` against `x = 0, 1, ...`, the fit
computed by the linear regression the source invokes on each window. -/
def olsSlope (ys : List F) : F :=
  let n := ys.length
  let xbar : F := ((n : F) - 1) / 2
  let ybar : F := ys.sum / (n : F)
  sumRange n (fun i => ((i : F) - xbar) * (ys.getD i 0 - ybar)) /
    sumRange n (fun i => ((i : F) - xbar) ^ 2)

/-- Ordinary-least-squares intercept of `ys` against `x = 0, 1, ...`. -/
def olsIntercept (ys : List F) : F :=
  ys.sum / (ys.length : F) - olsSlope ys * (((ys.length : F) - 1) / 2)

/-- The window `data['Close'][i - lookback : i]` of the `lookback` closes
ending just before index `i`. -/
def windowSlice (closes : List F) (lookback i : ℕ) : List F :=
  (closes.drop (i - lookback)).take lookback

/-- analyze_trends: for each `i` in `range(lookback, len(data))`, fit a line
over `Close[i - lookback : i]` and record date, slope and intercept. -/
def analyze_trends (closes : List F) (dates : List ℤ) (lookback : ℕ) :
    List (Trend F) :=
  (List.range (closes.length - lookback)).map (fun k =>
    let i := lookback + k
    let w := windowSlice closes lookback i
    { date := dates.getD i 0, slope := olsSlope w, intercept := olsIntercept w })

/-! ## Extrema detector (find_turning_points)

`scipy.signal.argrelextrema(a, comparator, order=5)` uses the default
boundary mode `clip`: for each index `i` and each shift `1 ≤ s ≤ order` it
compares `a[i]` with `a[min (i+s) (n-1)]` and `a[max (i-s) 0]` (out-of-range
neighbor positions are clamped to the ends of the array), and keeps `i` when
every comparison succeeds.  For indices `i < n` the clamped positions are
exactly `min (i+s) (n-1)` and `i - s` in truncated natural subtraction. -/

def isArgRelMax (closes : List F) (order i : ℕ) : Bool :=
  (List.range order).all (fun s =>
    decide (closes.getD (min (i + (s + 1)) (closes.length - 1)) 0 <
      closes.getD i 0) &&
    decide (closes.getD (i - (s + 1)) 0 < closes.getD i 0))

def isArgRelMin (closes : List F) (order i : ℕ) : Bool :=
  (List.range order).all (fun s =>
    decide (closes.getD i 0 <
      closes.getD (min (i + (s + 1)) (closes.length - 1)) 0) &&
    decide (closes.getD i 0 < closes.getD (i - (s + 1)) 0))

/-- Indices reported by `argrelextrema(Close, np.greater, order)`. -/
def argrelmaxIdx (closes : List F) (order : ℕ) : List ℕ :=
  (List.range closes.length).filter (isArgRelMax closes order)

/-- Indices reported by `argrelextrema(Close, np.less, order)`. -/
def argrelminIdx (closes : List F) (order : ℕ) : List ℕ :=
  (List.range closes.length).filter (isArgRelMin closes order)

/-- find_turning_points: the timestamps of the local maxima and minima found
with `order = 5`. -/
def find_turning_points (closes : List F) (dates : List ℤ) :
    List ℤ × List ℤ :=
  ((argrelmaxIdx closes 5).map (fun i => dates.getD i 0),
   (argrelminIdx closes 5).map (fun i => dates.getD i 0))

/-! ## Decision engine (make_decision) -/

/-- The literal decision and classification strings of the source. -/
def sBuy : String := "Buy"

def sSell : String := "Sell"

def sHold : String := "Hold"

def sUptrend : String := "Uptrend"

def sDowntrend : String := "Downtrend"

def sSideways : String := "Sideways"

def sNoTrend : String := "No Trend"

/-- The trend classification applied to a slope:
`> 0.001` uptrend, `< -0.001` downtrend, otherwise sideways. -/
def classifySlope (s : F) : String :=
  if 1 / 1000 < s then sUptrend
  else if s < -(1 / 1000) then sDowntrend
  else sSideways

/-- The classification make_decision derives from the most recent trend whose
date is not after the last bar: the linear scan from the end of the trend
list, yielding the no-trend marker when nothing qualifies. -/
def trendSignal (trends : List (Trend F)) (lastDate : ℤ) : String :=
  match trends.reverse.find? (fun t => decide (t.date ≤ lastDate)) with
  | some t => classifySlope t.slope
  | none => sNoTrend

/-- Column mean as computed by `np.mean` on a pandas column: NaN entries are skipped; it is NaN (`none`) only
when no entry is a number. -/
def skipnaMean (col : List (Option F)) : Option F :=
  let vals := col.filterMap id
  if vals.isEmpty then none else some (vals.sum / (vals.length : F))

/-- The volatility flag `data['Volatility'].iloc[-1] > np.mean(data['Volatility'])`; any
comparison against NaN is false. -/
def isVolatile (col : List (Option F)) : Bool :=
  match col.getLastD none, skipnaMean col with
  | some v, some m => decide (m < v)
  | _, _ => false

/-- Whether any timestamp of `ds` lies between 0 and `prox` days (inclusive)
before `lastDate`. -/
def nearAny (ds : List ℤ) (lastDate prox : ℤ) : Bool :=
  ds.any (fun p => decide (0 ≤ lastDate - p) && decide (lastDate - p ≤ prox))

/-- Comparison `o < c` in float semantics: false when `o` is NaN. -/
def optLtB (o : Option F) (c : F) : Bool :=
  match o with
  | some r => decide (r < c)
  | none => false

/-- Comparison `o > c` in float semantics: false when `o` is NaN. -/
def optGtB (o : Option F) (c : F) : Bool :=
  match o with
  | some r => decide (c < r)
  | none => false

/-- The columns and index of the frame passed to make_decision, after all
indicator stages have added their columns.  The RSI and Volatility columns
can hold NaN entries; the EMA and MACD columns are everywhere defined. -/
structure DecisionFrame (F : Type) where
  dates : List ℤ
  short_EMA : List F
  long_EMA : List F
  rsi : List (Option F)
  macd_Line : List F
  macd_Signal : List F
  volatility : List (Option F)

/-- The Buy branch condition of make_decision. -/
def buySignal (df : DecisionFrame F) (current_price : F) (trends : List (Trend F))
    (peaks : List ℤ) : Bool :=
  (trendSignal trends (df.dates.getLastD 0) == sUptrend) &&
  decide (df.short_EMA.getLastD 0 < current_price) &&
  optLtB (df.rsi.getLastD none) (RSI_OVERBOUGHT : F) &&
  decide (df.macd_Signal.getLastD 0 < df.macd_Line.getLastD 0) &&
  !isVolatile df.volatility &&
  !nearAny peaks (df.dates.getLastD 0) 5

/-- The Sell branch condition of make_decision. -/
def sellSignal (df : DecisionFrame F) (current_price : F) (trends : List (Trend F))
    (troughs : List ℤ) : Bool :=
  (trendSignal trends (df.dates.getLastD 0) == sDowntrend) &&
  decide (current_price < df.long_EMA.getLastD 0) &&
  optGtB (df.rsi.getLastD none) (RSI_OVERSOLD : F) &&
  decide (df.macd_Line.getLastD 0 < df.macd_Signal.getLastD 0) &&
  !isVolatile df.volatility &&
  !nearAny troughs (df.dates.getLastD 0) 5

/-- make_decision: Buy when the Buy branch condition holds, otherwise Sell
when the Sell branch condition holds, otherwise Hold. -/
def make_decision (df : DecisionFrame F) (current_price : F)
    (trends : List (Trend F)) (peaks troughs : List ℤ) : String :=
  if buySignal df current_price trends peaks then sBuy
  else if sellSignal df current_price trends troughs then sSell
  else sHold

/-! ## Column-level model of the pandas frame

For the frame/effect claims the two indicator stages are additionally
modelled at the level of the mutable table the source threads through the
pipeline: a timestamp index plus named columns of (possibly NaN) float
values.  `setCol` is pandas column assignment (overwrite in place, or append
a new column at the end); `dropCol` is `DataFrame.drop(columns=[...])`. -/

def cClose : String := "Close"

def cShortEMA : String := "Short_EMA"

def cLongEMA : String := "Long_EMA"

def cRSI : String := "RSI"

def cMACDFast : String := "MACD_Fast"

def cMACDSlow : String := "MACD_Slow"

def cMACDLine : String := "MACD_Line"

def cMACDSignal : String := "MACD_Signal"

def cMACDHist : String := "MACD_Hist"

def cVolatility : String := "Volatility"

def cMiddleBand : String := "Middle_Band"

def cUpperBand : String := "Upper_Band"

def cLowerBand : String := "Lower_Band"

/-- A pandas frame: a timestamp index and named columns of float values,
NaN modelled as `none`. -/
structure PFrame where
  index : List ℤ
  cols : List (String × List (Option ℝ))

/-- Reading a column (the empty column for an absent name). -/
def getCol (df : PFrame) (name : String) : List (Option ℝ) :=
  match df.cols.find? (fun p => p.fst == name) with
  | some p => p.snd
  | none => []

/-- Whether a column of this name is present. -/
def hasCol (df : PFrame) (name : String) : Bool :=
  df.cols.any (fun p => p.fst == name)

/-- Column assignment `df[name] = col`. -/
def setCol (df : PFrame) (name : String) (col : List (Option ℝ)) : PFrame :=
  if hasCol df name then
    { df with cols := df.cols.map (fun p => if p.fst == name then (name, col) else p) }
  else
    { df with cols := df.cols ++ [(name, col)] }

/-- Column removal: `df.drop(columns=[name])`. -/
def dropCol (df : PFrame) (name : String) : PFrame :=
  { df with cols := df.cols.filter (fun p => !(p.fst == name)) }

/-- The close prices of a frame as a position-indexed function. -/
noncomputable def closeValsOf (df : PFrame) : ℕ → ℝ :=
  fun i => ((getCol df cClose).getD i none).getD 0

/-- The number of bars of a frame. -/
def frameLen (df : PFrame) : ℕ := (getCol df cClose).length

/-- calculate_ema_rsi_macd at the frame level: adds the EMA, RSI and MACD
columns, each computed from the Close column. -/
noncomputable def calculate_ema_rsi_macd (df : PFrame) : PFrame :=
  let x := closeValsOf df
  let n := frameLen df
  let d1 := setCol df cShortEMA ((List.range n).map (fun i => some (shortEMA x i)))
  let d2 := setCol d1 cLongEMA ((List.range n).map (fun i => some (longEMA x i)))
  let d3 := setCol d2 cRSI ((List.range n).map (fun i => rsiVal x i))
  let d4 := setCol d3 cMACDFast ((List.range n).map (fun i => some (macdFast x i)))
  let d5 := setCol d4 cMACDSlow ((List.range n).map (fun i => some (macdSlow x i)))
  let d6 := setCol d5 cMACDLine ((List.range n).map (fun i => some (macdLine x i)))
  let d7 := setCol d6 cMACDSignal ((List.range n).map (fun i => some (macdSignal x i)))
  setCol d7 cMACDHist ((List.range n).map (fun i => some (macdHist x i)))

/-- calculate_volatility at the frame level: adds the Volatility column and
the middle band, derives the upper and lower bands from those two columns
(NaN propagating through the arithmetic), and drops the middle band from the
returned frame. -/
noncomputable def calculate_volatility (df : PFrame) : PFrame :=
  let x := closeValsOf df
  let n := frameLen df
  let d1 := setCol df cVolatility
    ((List.range n).map (fun i => volatilityVal VOLATILITY_LOOKBACK x n i))
  let d2 := setCol d1 cMiddleBand
    ((List.range n).map (fun i => middleBandVal VOLATILITY_LOOKBACK x n i))
  let d3 := setCol d2 cUpperBand
    (List.zipWith (fun mb v =>
      match mb, v with
      | some a, some b => some (a + (STD_MULTIPLIER : ℝ) * b)
      | _, _ => none) (getCol d2 cMiddleBand) (getCol d2 cVolatility))
  let d4 := setCol d3 cLowerBand
    (List.zipWith (fun mb v =>
      match mb, v with
      | some a, some b => some (a - (STD_MULTIPLIER : ℝ) * b)
      | _, _ => none) (getCol d3 cMiddleBand) (getCol d3 cVolatility))
  dropCol d4 cMiddleBand

/-- The full EMA column `Close.ewm(span=w, adjust=False).mean()`: one value
per bar, starting at index 0. -/
def emaColumn (w : ℕ) (closes : List F) : List F :=
  (List.range closes.length).map (ewm (emaAlpha w) (closeAt closes))

/-! ## Basic lemmas -/

theorem sumRange_succ (n : ℕ) (f : ℕ → F) :
    sumRange (n + 1) f = sumRange n f + f n := by
  simp [sumRange, List.range_succ]

theorem sumRange_eq_finset (n : ℕ) (f : ℕ → F) :
    sumRange n f = ∑ i ∈ Finset.range n, f i := by
  induction n with
  | zero => simp [sumRange]
  | succ m ih => rw [sumRange_succ, ih, Finset.sum_range_succ]

theorem getD_replicate_of_lt {α : Type} {n i : ℕ} (v d : α) (h : i < n) :
    (List.replicate n v).getD i d = v := by
  rw [List.getD_eq_getElem _ _ (by simpa using h)]
  simp

theorem ewm_const {a v : F} {n : ℕ} :
    ∀ i, i < n → ewm a (closeAt (List.replicate n v)) i = v := by
  intro i
  induction i with
  | zero =>
    intro h
    simp only [ewm, closeAt]
    exact getD_replicate_of_lt v 0 h
  | succ j ih =>
    intro h
    have hj : j < n := Nat.lt_of_succ_lt h
    simp only [ewm, closeAt]
    rw [getD_replicate_of_lt v 0 h, ih hj]
    ring

theorem ewm_nonneg (a : F) (x : ℕ → F) (h0 : 0 ≤ a) (h1 : a ≤ 1)
    (hx : ∀ i, 0 ≤ x i) : ∀ i, 0 ≤ ewm a x i := by
  intro i
  induction i with
  | zero => exact hx 0
  | succ j ih =>
    have := mul_nonneg h0 (hx (j + 1))
    have := mul_nonneg (by linarith : (0:F) ≤ 1 - a) ih
    simp only [ewm]
    linarith

theorem ewm_congr (a : F) (x y : ℕ → F) :
    ∀ i, (∀ j, j ≤ i → x j = y j) → ewm a x i = ewm a y i := by
  intro i
  induction i with
  | zero => intro h; simp only [ewm]; exact h 0 (le_refl 0)
  | succ j ih =>
    intro h
    simp only [ewm]
    rw [h (j + 1) (le_refl _), ih (fun k hk => h k (Nat.le_succ_of_le hk))]

/-! ## Claim C8: the MACD histogram identity -/

/-- C8.  At every index of every price series the MACD histogram equals the
MACD line minus the MACD signal exactly, where the MACD line is the fast EMA
minus the slow EMA of the closes and the MACD signal is the EMA, with the
signal window, of the MACD line series itself. -/
theorem macd_hist_identity (closes : List ℝ) (i : ℕ) :
    macdHist (closeAt closes) i =
      macdLine (closeAt closes) i - macdSignal (closeAt closes) i ∧
    macdLine (closeAt closes) i =
      ewm (emaAlpha MACD_FAST) (closeAt closes) i -
        ewm (emaAlpha MACD_SLOW) (closeAt closes) i ∧
    macdSignal (closeAt closes) i =
      ewm (emaAlpha MACD_SIGNAL) (macdLine (closeAt closes)) i := by
  exact ⟨rfl, rfl, rfl⟩

/-! ## Claim C9: EMA of a constant series -/

/-- C9.  For every window `w ≥ 1` and every constant close series of value
`v`, the EMA column (recurrence `ema 0 = close 0`,
`ema i = a * close i + (1-a) * ema (i-1)` with `a = 2/(w+1)`) is the constant
column again: it equals `v` at every index, and it has a value from index 0
on (the column has one entry per bar, with no warm-up gap). -/
theorem ema_constant_series (w n : ℕ) (v : ℚ) (hw : 1 ≤ w) :
    emaColumn w (List.replicate n v) = List.replicate n v := by
  rw [List.eq_replicate_iff]
  constructor
  · simp [emaColumn]
  · intro b hb
    simp only [emaColumn, List.mem_map, List.mem_range] at hb
    obtain ⟨i, hi, hb⟩ := hb
    rw [← hb]
    simpa using ewm_const i hi

/-- Witness for C9 at a concrete window and constant series. -/
theorem ema_constant_series_witness :
    1 ≤ 3 ∧ emaColumn 3 (List.replicate 4 (5:ℚ)) = List.replicate 4 5 :=
  ⟨by decide, ema_constant_series 3 4 5 (by decide)⟩

/-! ## Claim C2: RSI stays in [0, 100] -/

theorem gainAt_nonneg (x : ℕ → F) : ∀ i, 0 ≤ gainAt x i := by
  intro i
  cases i with
  | zero => exact le_refl 0
  | succ j => exact le_max_right _ _

theorem lossAt_nonneg (x : ℕ → F) : ∀ i, 0 ≤ lossAt x i := by
  intro i
  cases i with
  | zero => exact le_refl 0
  | succ j => exact le_max_right _ _

theorem avgGain_nonneg (x : ℕ → F) (i : ℕ) : 0 ≤ avgGain x i :=
  ewm_nonneg _ _ (by norm_num [RSI_WINDOW]) (by norm_num [RSI_WINDOW])
    (gainAt_nonneg x) i

theorem avgLoss_nonneg (x : ℕ → F) (i : ℕ) : 0 ≤ avgLoss x i :=
  ewm_nonneg _ _ (by norm_num [RSI_WINDOW]) (by norm_num [RSI_WINDOW])
    (lossAt_nonneg x) i

/-- C2.  At every index of every price series where the RSI value is a
number, it lies in `[0, 100]`; and it equals `100` exactly when the
Wilder-smoothed average loss at that index is `0` while the average gain is
positive — the degenerate division `avg_gain / avg_loss` with a zero average
loss resolves to RSI = 100 instead of propagating an undefined value. -/
theorem rsi_in_range (closes : List ℚ) (i : ℕ) (r : ℚ)
    (h : rsiVal (closeAt closes) i = some r) :
    (0 ≤ r ∧ r ≤ 100) ∧
    (r = 100 ↔
      avgLoss (closeAt closes) i = 0 ∧ 0 < avgGain (closeAt closes) i) := by
  have hg : 0 ≤ avgGain (closeAt closes) i := avgGain_nonneg _ i
  have hl : 0 ≤ avgLoss (closeAt closes) i := avgLoss_nonneg _ i
  by_cases hl0 : avgLoss (closeAt closes) i = 0
  · by_cases hg0 : avgGain (closeAt closes) i = 0
    · simp [rsiVal, hl0, hg0] at h
    · have hr : r = 100 := by
        simp [rsiVal, hl0, hg0] at h
        exact h.symm
      subst hr
      refine ⟨⟨by norm_num, le_refl _⟩, ?_⟩
      exact ⟨fun _ => ⟨hl0, lt_of_le_of_ne hg (Ne.symm hg0)⟩, fun _ => rfl⟩
  · have hlpos : 0 < avgLoss (closeAt closes) i := lt_of_le_of_ne hl (Ne.symm hl0)
    have hrs : 0 ≤ avgGain (closeAt closes) i / avgLoss (closeAt closes) i :=
      div_nonneg hg hl
    have hden : (0:ℚ) < 1 + avgGain (closeAt closes) i / avgLoss (closeAt closes) i := by
      linarith
    have hfrac_pos :
        0 < 100 / (1 + avgGain (closeAt closes) i / avgLoss (closeAt closes) i) :=
      div_pos (by norm_num) hden
    have hfrac_le :
        100 / (1 + avgGain (closeAt closes) i / avgLoss (closeAt closes) i) ≤ 100 :=
      div_le_self (by norm_num) (by linarith)
    have hr : r =
        100 - 100 / (1 + avgGain (closeAt closes) i / avgLoss (closeAt closes) i) := by
      simp only [rsiVal, hl0, if_false] at h
      exact (Option.some_injective _ h).symm
    constructor
    · constructor <;> [linarith; linarith]
    · constructor
      · intro h100
        exact absurd h100 (by linarith)
      · rintro ⟨habs, -⟩
        exact absurd habs hl0

/-- Concrete evaluation: on the series `[1, 2]` the single upward move gives
a zero average loss and a positive average gain, so RSI at index 1 is
exactly 100. -/
theorem rsi_sample_eval : rsiVal (closeAt [(1:ℚ), 2]) 1 = some 100 := by
  norm_num [rsiVal, avgGain, avgLoss, ewm, gainAt, lossAt, closeAt, RSI_WINDOW]

/-- Witness for C2 at the series `[1, 2]`. -/
theorem rsi_in_range_witness :
    rsiVal (closeAt [(1:ℚ), 2]) 1 = some 100 ∧
      ((0 ≤ (100:ℚ) ∧ (100:ℚ) ≤ 100) ∧
        ((100:ℚ) = 100 ↔
          avgLoss (closeAt [(1:ℚ), 2]) 1 = 0 ∧
            0 < avgGain (closeAt [(1:ℚ), 2]) 1)) :=
  ⟨rsi_sample_eval, rsi_in_range [(1:ℚ), 2] 1 100 rsi_sample_eval⟩

/-! ## Claim C5: short series decide Hold -/

theorem analyze_trends_nil {closes : List F} (dates : List ℤ) (lookback : ℕ)
    (hlen : closes.length ≤ lookback) :
    analyze_trends closes dates lookback = [] := by
  simp [analyze_trends, Nat.sub_eq_zero_of_le hlen]

/-- C5.  On an input price series of length at most `TREND_LOOKBACK = 90`
(and at least 1, per the data-model invariant on price series),
analyze_trends produces no segment, so no trend classification is available
and make_decision returns Hold — whatever the current price, the extrema
and the values of the indicator columns are. -/
theorem hold_when_series_short (df : DecisionFrame ℝ) (price : ℝ)
    (peaks troughs : List ℤ) (closes : List ℝ) (dates : List ℤ)
    (hne : 1 ≤ closes.length) (hlen : closes.length ≤ TREND_LOOKBACK) :
    make_decision df price (analyze_trends closes dates TREND_LOOKBACK)
      peaks troughs = "Hold" := by
  rw [analyze_trends_nil dates TREND_LOOKBACK hlen]
  simp [make_decision, buySignal, sellSignal, trendSignal, sNoTrend, sUptrend,
    sDowntrend, sHold]

/-- Witness for C5 at a one-bar series and an arbitrary concrete frame. -/
theorem hold_when_series_short_witness :
    1 ≤ [(1:ℝ)].length ∧ [(1:ℝ)].length ≤ TREND_LOOKBACK ∧
      make_decision (DecisionFrame.mk [0] [1] [1] [some 1] [1] [1] [some 1])
        (0:ℝ) (analyze_trends [(1:ℝ)] [0] TREND_LOOKBACK) [] [] = "Hold" :=
  ⟨by decide, by decide,
    hold_when_series_short _ 0 [] [] [(1:ℝ)] [0] (by decide) (by decide)⟩

/-! ## Claim C1: the decision rule -/

theorem optLtB_eq_true {o : Option F} {c : F} :
    optLtB o c = true ↔ ∃ r, o = some r ∧ r < c := by
  cases o <;> simp [optLtB]

theorem optGtB_eq_true {o : Option F} {c : F} :
    optGtB o c = true ↔ ∃ r, o = some r ∧ c < r := by
  cases o <;> simp [optGtB]

theorem buySignal_eq_true_iff (df : DecisionFrame ℝ) (price : ℝ)
    (trends : List (Trend ℝ)) (peaks : List ℤ) :
    buySignal df price trends peaks = true ↔
      (trendSignal trends (df.dates.getLastD 0) = "Uptrend" ∧
       df.short_EMA.getLastD 0 < price ∧
       (∃ r, df.rsi.getLastD none = some r ∧ r < 70) ∧
       df.macd_Signal.getLastD 0 < df.macd_Line.getLastD 0 ∧
       isVolatile df.volatility = false ∧
       nearAny peaks (df.dates.getLastD 0) 5 = false) := by
  have : ((RSI_OVERBOUGHT : ℕ) : ℝ) = 70 := by norm_num [RSI_OVERBOUGHT]
  simp [buySignal, Bool.and_eq_true, decide_eq_true_eq, optLtB_eq_true,
    Bool.not_eq_true', sUptrend, this, and_assoc]

theorem sellSignal_eq_true_iff (df : DecisionFrame ℝ) (price : ℝ)
    (trends : List (Trend ℝ)) (troughs : List ℤ) :
    sellSignal df price trends troughs = true ↔
      (trendSignal trends (df.dates.getLastD 0) = "Downtrend" ∧
       price < df.long_EMA.getLastD 0 ∧
       (∃ r, df.rsi.getLastD none = some r ∧ 30 < r) ∧
       df.macd_Line.getLastD 0 < df.macd_Signal.getLastD 0 ∧
       isVolatile df.volatility = false ∧
       nearAny troughs (df.dates.getLastD 0) 5 = false) := by
  have : ((RSI_OVERSOLD : ℕ) : ℝ) = 30 := by norm_num [RSI_OVERSOLD]
  simp [sellSignal, Bool.and_eq_true, decide_eq_true_eq, optGtB_eq_true,
    Bool.not_eq_true', sDowntrend, this, and_assoc]

/-- C1.  For every frame of computed indicator columns, current price,
trend list and extrema timestamps: make_decision returns Buy exactly when
the trend classification is Uptrend, the price exceeds the latest short EMA,
the latest RSI is a number below 70, the latest MACD line exceeds the latest
MACD signal, the frame is not volatile and no peak is near; it returns Sell
exactly when the trend classification is Downtrend, the price is below the
latest long EMA, the latest RSI is a number above 30, the latest MACD line
is below the latest MACD signal, the frame is not volatile and no trough is
near; in every other case (the Buy conditions are checked first) it returns
Hold, and the result is always one of these three strings. -/
theorem make_decision_rule (df : DecisionFrame ℝ) (price : ℝ)
    (trends : List (Trend ℝ)) (peaks troughs : List ℤ) :
    (make_decision df price trends peaks troughs = "Buy" ↔
      (trendSignal trends (df.dates.getLastD 0) = "Uptrend" ∧
       df.short_EMA.getLastD 0 < price ∧
       (∃ r, df.rsi.getLastD none = some r ∧ r < 70) ∧
       df.macd_Signal.getLastD 0 < df.macd_Line.getLastD 0 ∧
       isVolatile df.volatility = false ∧
       nearAny peaks (df.dates.getLastD 0) 5 = false)) ∧
    (make_decision df price trends peaks troughs = "Sell" ↔
      (trendSignal trends (df.dates.getLastD 0) = "Downtrend" ∧
       price < df.long_EMA.getLastD 0 ∧
       (∃ r, df.rsi.getLastD none = some r ∧ 30 < r) ∧
       df.macd_Line.getLastD 0 < df.macd_Signal.getLastD 0 ∧
       isVolatile df.volatility = false ∧
       nearAny troughs (df.dates.getLastD 0) 5 = false)) ∧
    (make_decision df price trends peaks troughs = "Hold" ↔
      (¬ buySignal df price trends peaks = true ∧
       ¬ sellSignal df price trends troughs = true)) ∧
    (make_decision df price trends peaks troughs = "Buy" ∨
     make_decision df price trends peaks troughs = "Sell" ∨
     make_decision df price trends peaks troughs = "Hold") := by
  have hb := buySignal_eq_true_iff df price trends peaks
  have hs := sellSignal_eq_true_iff df price trends troughs
  by_cases hB : buySignal df price trends peaks = true
  · have hnotS : ¬ sellSignal df price trends troughs = true := by
      intro hS
      have h1 := (hb.mp hB).1
      have h2 := (hs.mp hS).1
      rw [h1] at h2
      exact absurd h2 (by decide)
    have hmd : make_decision df price trends peaks troughs = "Buy" := by
      simp [make_decision, hB, sBuy]
    rw [hmd]
    refine ⟨⟨fun _ => hb.mp hB, fun _ => rfl⟩, ?_, ?_, Or.inl rfl⟩
    · constructor
      · intro h; exact absurd h (by decide)
      · intro h; exact absurd (hs.mpr h) hnotS
    · constructor
      · intro h; exact absurd h (by decide)
      · intro h; exact absurd hB h.1
  · by_cases hS : sellSignal df price trends troughs = true
    · have hmd : make_decision df price trends peaks troughs = "Sell" := by
        simp [make_decision, hB, hS, sSell]
      rw [hmd]
      refine ⟨?_, ⟨fun _ => hs.mp hS, fun _ => rfl⟩, ?_, Or.inr (Or.inl rfl)⟩
      · constructor
        · intro h; exact absurd h (by decide)
        · intro h; exact absurd (hb.mpr h) hB
      · constructor
        · intro h; exact absurd h (by decide)
        · intro h; exact absurd hS h.2
    · have hmd : make_decision df price trends peaks troughs = "Hold" := by
        simp [make_decision, hB, hS, sHold]
      rw [hmd]
      refine ⟨?_, ?_, ⟨fun _ => ⟨hB, hS⟩, fun _ => rfl⟩, Or.inr (Or.inr rfl)⟩
      · constructor
        · intro h; exact absurd h (by decide)
        · intro h; exact absurd (hb.mpr h) hB
      · constructor
        · intro h; exact absurd h (by decide)
        · intro h; exact absurd (hs.mpr h) hS

/-! ## Claim C7: indicators are causal (no lookahead) -/

theorem closeAt_eq_of_take_eq {c1 c2 : List F} {i : ℕ}
    (h1 : i < c1.length) (h2 : i < c2.length)
    (h : c1.take (i + 1) = c2.take (i + 1)) :
    ∀ j, j ≤ i → closeAt c1 j = closeAt c2 j := by
  intro j hj
  have hj1 : j < c1.length := lt_of_le_of_lt hj h1
  have hj2 : j < c2.length := lt_of_le_of_lt hj h2
  have ht1 : j < (c1.take (i + 1)).length := by
    simpa using ⟨Nat.lt_succ_of_le hj, hj1⟩
  have ht2 : j < (c2.take (i + 1)).length := by
    simpa using ⟨Nat.lt_succ_of_le hj, hj2⟩
  have e := congrArg (fun l : List F => l.getD j 0) h
  simp only [List.getD_eq_getElem _ _ ht1, List.getD_eq_getElem _ _ ht2,
    List.getElem_take] at e
  simp only [closeAt]
  rw [List.getD_eq_getElem _ _ hj1, List.getD_eq_getElem _ _ hj2]
  exact e

theorem gainAt_congr {x y : ℕ → F} {i : ℕ} (h : ∀ j, j ≤ i → x j = y j) :
    ∀ j, j ≤ i → gainAt x j = gainAt y j := by
  intro j hj
  cases j with
  | zero => rfl
  | succ k =>
    simp only [gainAt]
    rw [h (k + 1) hj, h k (le_of_lt (Nat.lt_of_lt_of_le (Nat.lt_succ_self k) hj))]

theorem lossAt_congr {x y : ℕ → F} {i : ℕ} (h : ∀ j, j ≤ i → x j = y j) :
    ∀ j, j ≤ i → lossAt x j = lossAt y j := by
  intro j hj
  cases j with
  | zero => rfl
  | succ k =>
    simp only [lossAt]
    rw [h (k + 1) hj, h k (le_of_lt (Nat.lt_of_lt_of_le (Nat.lt_succ_self k) hj))]

theorem rsiVal_congr {x y : ℕ → F} {i : ℕ} (h : ∀ j, j ≤ i → x j = y j) :
    rsiVal x i = rsiVal y i := by
  have hg : avgGain x i = avgGain y i := ewm_congr _ _ _ i (gainAt_congr h)
  have hl : avgLoss x i = avgLoss y i := ewm_congr _ _ _ i (lossAt_congr h)
  simp only [rsiVal, hg, hl]

theorem macdLine_congr {x y : ℕ → F} {i : ℕ} (h : ∀ j, j ≤ i → x j = y j) :
    ∀ j, j ≤ i → macdLine x j = macdLine y j := by
  intro j hj
  have hx : ∀ k, k ≤ j → x k = y k := fun k hk => h k (le_trans hk hj)
  simp only [macdLine, macdFast, macdSlow]
  rw [ewm_congr _ _ _ j hx, ewm_congr _ _ _ j hx]

theorem macdSignal_congr {x y : ℕ → F} {i : ℕ} (h : ∀ j, j ≤ i → x j = y j) :
    macdSignal x i = macdSignal y i :=
  ewm_congr _ _ _ i (macdLine_congr h)

theorem rollingMean_congr {x y : ℕ → F} {lookback i : ℕ}
    (h : ∀ j, j ≤ i → x j = y j) :
    rollingMean lookback x i = rollingMean lookback y i := by
  have : ∀ j, x (i - j) = y (i - j) := fun j => h (i - j) (Nat.sub_le i j)
  simp only [rollingMean, sumRange]
  congr 1
  exact congrArg List.sum (List.map_congr_left (fun j _ => this j))

theorem rollingVar_congr {x y : ℕ → F} {lookback i : ℕ}
    (h : ∀ j, j ≤ i → x j = y j) :
    rollingVar lookback x i = rollingVar lookback y i := by
  have hm := @rollingMean_congr F _ x y lookback i h
  have : ∀ j, x (i - j) = y (i - j) := fun j => h (i - j) (Nat.sub_le i j)
  simp only [rollingVar, sumRange]
  congr 1
  refine congrArg List.sum (List.map_congr_left (fun j _ => ?_))
  rw [this j, hm]

/-- C7.  Indicator values are strictly causal: whenever two price series
agree on all bars up to and including index `i` (and both extend at least
that far), every indicator field at index `i` — short and long EMA, RSI,
MACD line, signal and histogram, volatility, upper and lower band — is the
same for the two series.  No field looks ahead of its index. -/
theorem indicators_causal (c1 c2 : List ℝ) (i : ℕ)
    (h1 : i < c1.length) (h2 : i < c2.length)
    (h : c1.take (i + 1) = c2.take (i + 1)) :
    shortEMA (closeAt c1) i = shortEMA (closeAt c2) i ∧
    longEMA (closeAt c1) i = longEMA (closeAt c2) i ∧
    rsiVal (closeAt c1) i = rsiVal (closeAt c2) i ∧
    macdLine (closeAt c1) i = macdLine (closeAt c2) i ∧
    macdSignal (closeAt c1) i = macdSignal (closeAt c2) i ∧
    macdHist (closeAt c1) i = macdHist (closeAt c2) i ∧
    volatilityVal VOLATILITY_LOOKBACK (closeAt c1) c1.length i =
      volatilityVal VOLATILITY_LOOKBACK (closeAt c2) c2.length i ∧
    upperBandVal VOLATILITY_LOOKBACK (STD_MULTIPLIER : ℝ) (closeAt c1)
        c1.length i =
      upperBandVal VOLATILITY_LOOKBACK (STD_MULTIPLIER : ℝ) (closeAt c2)
        c2.length i ∧
    lowerBandVal VOLATILITY_LOOKBACK (STD_MULTIPLIER : ℝ) (closeAt c1)
        c1.length i =
      lowerBandVal VOLATILITY_LOOKBACK (STD_MULTIPLIER : ℝ) (closeAt c2)
        c2.length i := by
  have hc : ∀ j, j ≤ i → closeAt c1 j = closeAt c2 j :=
    closeAt_eq_of_take_eq h1 h2 h
  have hml := macdLine_congr hc i (le_refl i)
  have hvd : volDefined VOLATILITY_LOOKBACK c1.length i ↔
      volDefined VOLATILITY_LOOKBACK c2.length i := by
    unfold volDefined
    constructor <;> (rintro ⟨a, b, -⟩; exact ⟨a, b, by assumption⟩)
  have hmd : meanDefined VOLATILITY_LOOKBACK c1.length i ↔
      meanDefined VOLATILITY_LOOKBACK c2.length i := by
    unfold meanDefined
    constructor <;> (rintro ⟨a, b, -⟩; exact ⟨a, b, by assumption⟩)
  have hvol : volatilityVal VOLATILITY_LOOKBACK (closeAt c1) c1.length i =
      volatilityVal VOLATILITY_LOOKBACK (closeAt c2) c2.length i := by
    unfold volatilityVal
    by_cases hd : volDefined VOLATILITY_LOOKBACK c1.length i
    · rw [if_pos hd, if_pos (hvd.mp hd), rollingVar_congr hc]
    · rw [if_neg hd, if_neg (fun hx => hd (hvd.mpr hx))]
  have hmid : middleBandVal VOLATILITY_LOOKBACK (closeAt c1) c1.length i =
      middleBandVal VOLATILITY_LOOKBACK (closeAt c2) c2.length i := by
    unfold middleBandVal
    by_cases hd : meanDefined VOLATILITY_LOOKBACK c1.length i
    · rw [if_pos hd, if_pos (hmd.mp hd), rollingMean_congr hc]
    · rw [if_neg hd, if_neg (fun hx => hd (hmd.mpr hx))]
  refine ⟨ewm_congr _ _ _ i hc, ewm_congr _ _ _ i hc, rsiVal_congr hc, hml,
    macdSignal_congr hc, ?_, hvol, ?_, ?_⟩
  · simp only [macdHist, hml, macdSignal_congr hc]
  · simp only [upperBandVal, hvol, hmid]
  · simp only [lowerBandVal, hvol, hmid]

/-- Witness for C7: two three-bar series agreeing up to index 1. -/
theorem indicators_causal_witness :
    (1 < [(1:ℝ), 2, 3].length ∧ 1 < [(1:ℝ), 2, 4].length ∧
      [(1:ℝ), 2, 3].take 2 = [(1:ℝ), 2, 4].take 2) ∧
    shortEMA (closeAt [(1:ℝ), 2, 3]) 1 = shortEMA (closeAt [(1:ℝ), 2, 4]) 1 :=
  ⟨⟨by decide, by decide, rfl⟩,
    (indicators_causal [(1:ℝ), 2, 3] [(1:ℝ), 2, 4] 1 (by decide) (by decide)
      rfl).1⟩

/-! ## Claim C6: Bollinger bands bracket the rolling mean -/

/-- C6.  For every price series and every multiplier `m ≥ 0`: below the
warm-up index `lookback - 1` the volatility and both bands are undefined;
and wherever the bands are defined they equal
`mean + m * std` and `mean - m * std` for the trailing-window rolling mean
and (sample) standard deviation ending at the current index, so they bracket
the rolling mean: `lowerBand ≤ mean ≤ upperBand`. -/
theorem bollinger_band_order (closes : List ℝ) (lookback : ℕ) (m : ℝ)
    (i : ℕ) (hm : 0 ≤ m) :
    (i + 1 < lookback →
      volatilityVal lookback (closeAt closes) closes.length i = none ∧
      upperBandVal lookback m (closeAt closes) closes.length i = none ∧
      lowerBandVal lookback m (closeAt closes) closes.length i = none) ∧
    (∀ mb v, middleBandVal lookback (closeAt closes) closes.length i = some mb →
      volatilityVal lookback (closeAt closes) closes.length i = some v →
      upperBandVal lookback m (closeAt closes) closes.length i =
        some (mb + m * v) ∧
      lowerBandVal lookback m (closeAt closes) closes.length i =
        some (mb - m * v) ∧
      mb - m * v ≤ mb ∧ mb ≤ mb + m * v ∧
      mb = rollingMean lookback (closeAt closes) i) := by
  constructor
  · intro hwarm
    have hnd : ¬ volDefined lookback closes.length i := by
      unfold volDefined; omega
    have hnm : ¬ meanDefined lookback closes.length i := by
      unfold meanDefined; omega
    have hv : volatilityVal lookback (closeAt closes) closes.length i = none := by
      unfold volatilityVal; rw [if_neg hnd]
    have hmb : middleBandVal lookback (closeAt closes) closes.length i = none := by
      unfold middleBandVal; rw [if_neg hnm]
    refine ⟨hv, ?_, ?_⟩
    · unfold upperBandVal; rw [hv, hmb]
    · unfold lowerBandVal; rw [hv, hmb]
  · intro mb v hmb hv
    have hvnn : 0 ≤ v := by
      unfold volatilityVal at hv
      by_cases hd : volDefined lookback closes.length i
      · rw [if_pos hd] at hv
        have := (Option.some_injective _ hv).symm
        rw [this]
        exact Real.sqrt_nonneg _
      · rw [if_neg hd] at hv
        exact absurd hv (by simp)
    have hmv : 0 ≤ m * v := mul_nonneg hm hvnn
    have hmean : mb = rollingMean lookback (closeAt closes) i := by
      unfold middleBandVal at hmb
      by_cases hd : meanDefined lookback closes.length i
      · rw [if_pos hd] at hmb
        exact (Option.some_injective _ hmb).symm
      · rw [if_neg hd] at hmb
        exact absurd hmb (by simp)
    refine ⟨?_, ?_, by linarith, by linarith, hmean⟩
    · unfold upperBandVal; rw [hmb, hv]
    · unfold lowerBandVal; rw [hmb, hv]

/-- Witness for C6 at a three-bar series with `lookback = 2` and
multiplier 2. -/
theorem bollinger_band_order_witness :
    (0:ℝ) ≤ 2 ∧
    ((0 + 1 < 2 →
      volatilityVal 2 (closeAt [(1:ℝ), 2, 3]) [(1:ℝ), 2, 3].length 0 = none ∧
      upperBandVal 2 2 (closeAt [(1:ℝ), 2, 3]) [(1:ℝ), 2, 3].length 0 = none ∧
      lowerBandVal 2 2 (closeAt [(1:ℝ), 2, 3]) [(1:ℝ), 2, 3].length 0 = none) ∧
    (∀ mb v,
      middleBandVal 2 (closeAt [(1:ℝ), 2, 3]) [(1:ℝ), 2, 3].length 0 = some mb →
      volatilityVal 2 (closeAt [(1:ℝ), 2, 3]) [(1:ℝ), 2, 3].length 0 = some v →
      upperBandVal 2 2 (closeAt [(1:ℝ), 2, 3]) [(1:ℝ), 2, 3].length 0 =
        some (mb + 2 * v) ∧
      lowerBandVal 2 2 (closeAt [(1:ℝ), 2, 3]) [(1:ℝ), 2, 3].length 0 =
        some (mb - 2 * v) ∧
      mb - 2 * v ≤ mb ∧ mb ≤ mb + 2 * v ∧
      mb = rollingMean 2 (closeAt [(1:ℝ), 2, 3]) 0)) :=
  ⟨zero_le_two, bollinger_band_order [(1:ℝ), 2, 3] 2 2 0 zero_le_two⟩

/-! ## Claim C10: the stages only add their own columns -/

theorem find?_map_replace (l : List (String × List (Option ℝ)))
    (name name' : String) (col : List (Option ℝ)) (h : name' ≠ name) :
    (l.map (fun p => if p.fst == name then (name, col) else p)).find?
        (fun p => p.fst == name') =
      l.find? (fun p => p.fst == name') := by
  induction l with
  | nil => rfl
  | cons p l ih =>
    by_cases hp : p.fst = name
    · have hb : (p.fst == name) = true := beq_iff_eq.mpr hp
      have h1 : (name == name') = false := beq_eq_false_iff_ne.mpr (Ne.symm h)
      have h2 : (p.fst == name') = false := by
        rw [hp]; exact beq_eq_false_iff_ne.mpr (Ne.symm h)
      simp only [List.map_cons, List.find?_cons, hb, if_true, h1, h2, ih]
    · have hb : (p.fst == name) = false := beq_eq_false_iff_ne.mpr hp
      by_cases hq : p.fst = name'
      · have h2 : (p.fst == name') = true := beq_iff_eq.mpr hq
        simp only [List.map_cons, List.find?_cons, hb, Bool.false_eq_true,
          if_false, h2]
      · have h2 : (p.fst == name') = false := beq_eq_false_iff_ne.mpr hq
        simp only [List.map_cons, List.find?_cons, hb, Bool.false_eq_true,
          if_false, h2, ih]

theorem find?_append_single (l : List (String × List (Option ℝ)))
    (name name' : String) (col : List (Option ℝ)) (h : name' ≠ name) :
    ((l ++ [(name, col)]).find? (fun p => p.fst == name')) =
      l.find? (fun p => p.fst == name') := by
  induction l with
  | nil =>
    have h1 : (name == name') = false := beq_eq_false_iff_ne.mpr (Ne.symm h)
    simp only [List.nil_append, List.find?_cons, h1, List.find?_nil]
  | cons p l ih =>
    by_cases hq : p.fst = name'
    · have h2 : (p.fst == name') = true := beq_iff_eq.mpr hq
      simp only [List.cons_append, List.find?_cons, h2]
    · have h2 : (p.fst == name') = false := beq_eq_false_iff_ne.mpr hq
      simp only [List.cons_append, List.find?_cons, h2, ih]

theorem setCol_index (df : PFrame) (name : String) (col : List (Option ℝ)) :
    (setCol df name col).index = df.index := by
  unfold setCol
  split <;> rfl

theorem dropCol_index (df : PFrame) (name : String) :
    (dropCol df name).index = df.index := rfl

theorem getCol_setCol_ne (df : PFrame) (name name' : String)
    (col : List (Option ℝ)) (h : name' ≠ name) :
    getCol (setCol df name col) name' = getCol df name' := by
  by_cases hc : hasCol df name = true
  · simp only [getCol, setCol, if_pos hc, find?_map_replace _ _ _ _ h]
  · simp only [getCol, setCol, if_neg hc, find?_append_single _ _ _ _ h]

theorem hasCol_setCol_self (df : PFrame) (name : String)
    (col : List (Option ℝ)) : hasCol (setCol df name col) name = true := by
  unfold setCol
  split
  · rename_i hpos
    unfold hasCol at hpos ⊢
    simp only [List.any_map, List.any_eq_true] at hpos ⊢
    obtain ⟨p, hp, hb⟩ := hpos
    refine ⟨p, hp, ?_⟩
    simp only [Function.comp]
    rw [if_pos hb]
    exact beq_self_eq_true name
  · unfold hasCol
    simp

theorem hasCol_setCol_ne (df : PFrame) (name name' : String)
    (col : List (Option ℝ)) (h : name' ≠ name) :
    hasCol (setCol df name col) name' = hasCol df name' := by
  unfold setCol
  split
  · unfold hasCol
    rw [Bool.eq_iff_iff]
    simp only [List.any_map, List.any_eq_true]
    constructor
    · rintro ⟨p, hp, hb⟩
      refine ⟨p, hp, ?_⟩
      simp only [Function.comp] at hb
      by_cases hc : (p.fst == name) = true
      · rw [if_pos hc] at hb
        exact absurd (beq_iff_eq.mp hb) (Ne.symm h)
      · rwa [if_neg hc] at hb
    · rintro ⟨p, hp, hb⟩
      refine ⟨p, hp, ?_⟩
      simp only [Function.comp]
      by_cases hc : (p.fst == name) = true
      · rw [beq_iff_eq.mp hc] at hb
        exact absurd (beq_iff_eq.mp hb) (Ne.symm h)
      · rwa [if_neg hc]
  · unfold hasCol
    simp only [List.any_append, List.any_cons, List.any_nil, Bool.or_false]
    have h1 : (name == name') = false := beq_eq_false_iff_ne.mpr (Ne.symm h)
    simp [h1]

theorem hasCol_dropCol_self (df : PFrame) (name : String) :
    hasCol (dropCol df name) name = false := by
  unfold dropCol hasCol
  rw [Bool.eq_false_iff, Ne, List.any_eq_true]
  rintro ⟨p, hp, hb⟩
  rw [List.mem_filter] at hp
  rw [hb] at hp
  exact absurd hp.2 (by decide)

theorem hasCol_dropCol_ne (df : PFrame) (name name' : String) (h : name' ≠ name) :
    hasCol (dropCol df name) name' = hasCol df name' := by
  unfold dropCol hasCol
  rw [Bool.eq_iff_iff]
  simp only [List.any_eq_true, List.mem_filter]
  constructor
  · rintro ⟨p, ⟨hp, -⟩, hb⟩
    exact ⟨p, hp, hb⟩
  · rintro ⟨p, hp, hb⟩
    refine ⟨p, ⟨hp, ?_⟩, hb⟩
    rw [beq_iff_eq.mp hb]
    simpa using h

theorem getCol_dropCol_ne (df : PFrame) (name name' : String) (h : name' ≠ name) :
    getCol (dropCol df name) name' = getCol df name' := by
  unfold dropCol getCol
  congr 1
  induction df.cols with
  | nil => rfl
  | cons p l ih =>
    by_cases hq : p.fst = name'
    · have h2 : (p.fst == name') = true := beq_iff_eq.mpr hq
      have h3 : (p.fst == name) = false := by
        refine beq_eq_false_iff_ne.mpr ?_
        rw [hq]; exact h
      simp [List.find?_cons, h2, h3]
    · have h2 : (p.fst == name') = false := beq_eq_false_iff_ne.mpr hq
      by_cases hc : p.fst = name
      · have h3 : (p.fst == name) = true := beq_iff_eq.mpr hc
        simp [List.find?_cons, h2, h3, ih]
      · have h3 : (p.fst == name) = false := beq_eq_false_iff_ne.mpr hc
        simp [List.find?_cons, h2, h3, ih]

/-- C10.  Neither indicator stage disturbs the data it received: the Close
column and the timestamp index are the same before and after
calculate_ema_rsi_macd and before and after calculate_volatility, every
column added by calculate_ema_rsi_macd is passed through calculate_volatility
unchanged, and the frame returned by calculate_volatility carries the
Volatility, Upper_Band and Lower_Band columns but no longer the intermediate
Middle_Band (rolling mean) column. -/
theorem stage_frame_effects (df : PFrame) :
    getCol (calculate_ema_rsi_macd df) cClose = getCol df cClose ∧
    (calculate_ema_rsi_macd df).index = df.index ∧
    getCol (calculate_volatility df) cClose = getCol df cClose ∧
    (calculate_volatility df).index = df.index ∧
    getCol (calculate_volatility df) cShortEMA = getCol df cShortEMA ∧
    getCol (calculate_volatility df) cLongEMA = getCol df cLongEMA ∧
    getCol (calculate_volatility df) cRSI = getCol df cRSI ∧
    getCol (calculate_volatility df) cMACDFast = getCol df cMACDFast ∧
    getCol (calculate_volatility df) cMACDSlow = getCol df cMACDSlow ∧
    getCol (calculate_volatility df) cMACDLine = getCol df cMACDLine ∧
    getCol (calculate_volatility df) cMACDSignal = getCol df cMACDSignal ∧
    getCol (calculate_volatility df) cMACDHist = getCol df cMACDHist ∧
    hasCol (calculate_volatility df) cVolatility = true ∧
    hasCol (calculate_volatility df) cUpperBand = true ∧
    hasCol (calculate_volatility df) cLowerBand = true ∧
    hasCol (calculate_volatility df) cMiddleBand = false := by
  have hV : ∀ name, name ≠ cVolatility → name ≠ cMiddleBand →
      name ≠ cUpperBand → name ≠ cLowerBand →
      getCol (calculate_volatility df) name = getCol df name := by
    intro name h1 h2 h3 h4
    simp only [calculate_volatility]
    rw [getCol_dropCol_ne _ _ _ h2, getCol_setCol_ne _ _ _ _ h4,
      getCol_setCol_ne _ _ _ _ h3, getCol_setCol_ne _ _ _ _ h2,
      getCol_setCol_ne _ _ _ _ h1]
  have hE : getCol (calculate_ema_rsi_macd df) cClose = getCol df cClose := by
    simp only [calculate_ema_rsi_macd]
    rw [getCol_setCol_ne _ _ _ _ (by decide), getCol_setCol_ne _ _ _ _ (by decide),
      getCol_setCol_ne _ _ _ _ (by decide), getCol_setCol_ne _ _ _ _ (by decide),
      getCol_setCol_ne _ _ _ _ (by decide), getCol_setCol_ne _ _ _ _ (by decide),
      getCol_setCol_ne _ _ _ _ (by decide), getCol_setCol_ne _ _ _ _ (by decide)]
  have hEi : (calculate_ema_rsi_macd df).index = df.index := by
    simp only [calculate_ema_rsi_macd, setCol_index]
  have hVi : (calculate_volatility df).index = df.index := by
    simp only [calculate_volatility, dropCol_index, setCol_index]
  have hVol : hasCol (calculate_volatility df) cVolatility = true := by
    simp only [calculate_volatility]
    rw [hasCol_dropCol_ne _ _ _ (by decide), hasCol_setCol_ne _ _ _ _ (by decide),
      hasCol_setCol_ne _ _ _ _ (by decide), hasCol_setCol_ne _ _ _ _ (by decide)]
    exact hasCol_setCol_self _ _ _
  have hUp : hasCol (calculate_volatility df) cUpperBand = true := by
    simp only [calculate_volatility]
    rw [hasCol_dropCol_ne _ _ _ (by decide), hasCol_setCol_ne _ _ _ _ (by decide)]
    exact hasCol_setCol_self _ _ _
  have hLo : hasCol (calculate_volatility df) cLowerBand = true := by
    simp only [calculate_volatility]
    rw [hasCol_dropCol_ne _ _ _ (by decide)]
    exact hasCol_setCol_self _ _ _
  have hMid : hasCol (calculate_volatility df) cMiddleBand = false := by
    simp only [calculate_volatility]
    exact hasCol_dropCol_self _ _
  exact ⟨hE, hEi, hV _ (by decide) (by decide) (by decide) (by decide), hVi,
    hV _ (by decide) (by decide) (by decide) (by decide),
    hV _ (by decide) (by decide) (by decide) (by decide),
    hV _ (by decide) (by decide) (by decide) (by decide),
    hV _ (by decide) (by decide) (by decide) (by decide),
    hV _ (by decide) (by decide) (by decide) (by decide),
    hV _ (by decide) (by decide) (by decide) (by decide),
    hV _ (by decide) (by decide) (by decide) (by decide),
    hV _ (by decide) (by decide) (by decide) (by decide),
    hVol, hUp, hLo, hMid⟩

/-! ## Claim C3: which indices the extrema detector reports

scipy's default boundary mode `clip` means an index near the series boundary
is *not* required to have `order` real neighbors on both sides: clamped
neighbor positions simply repeat the boundary element, so an interior index
qualifies as soon as it strictly dominates every *existing* index within
distance `order`.  Endpoints (index `0` and `length - 1`) never qualify,
because a clamped comparison degenerates to comparing the element with
itself. -/

theorem isArgRelMax_eq_true_iff (closes : List F) (o i : ℕ) :
    isArgRelMax closes o i = true ↔
      ∀ s, s < o →
        closes.getD (min (i + (s + 1)) (closes.length - 1)) 0 <
          closes.getD i 0 ∧
        closes.getD (i - (s + 1)) 0 < closes.getD i 0 := by
  simp [isArgRelMax, List.all_eq_true, Bool.and_eq_true, decide_eq_true_eq]

theorem isArgRelMin_eq_true_iff (closes : List F) (o i : ℕ) :
    isArgRelMin closes o i = true ↔
      ∀ s, s < o →
        closes.getD i 0 <
          closes.getD (min (i + (s + 1)) (closes.length - 1)) 0 ∧
        closes.getD i 0 < closes.getD (i - (s + 1)) 0 := by
  simp [isArgRelMin, List.all_eq_true, Bool.and_eq_true, decide_eq_true_eq]

theorem mem_argrelmax_iff (closes : List F) (o i : ℕ) (ho : 1 ≤ o) :
    i ∈ argrelmaxIdx closes o ↔
      (0 < i ∧ i + 1 < closes.length ∧
        ∀ j, j < closes.length → i - o ≤ j → j ≤ i + o → j ≠ i →
          closes.getD j 0 < closes.getD i 0) := by
  rw [argrelmaxIdx, List.mem_filter, List.mem_range, isArgRelMax_eq_true_iff]
  constructor
  · rintro ⟨hin, hall⟩
    have h0 : 0 < i := by
      by_contra h0
      have hi0 : i = 0 := by omega
      have := (hall 0 ho).2
      rw [hi0] at this
      exact lt_irrefl _ this
    have hn : i + 1 < closes.length := by
      by_contra hn
      have hmin : min (i + (0 + 1)) (closes.length - 1) = i := by omega
      have := (hall 0 ho).1
      rw [hmin] at this
      exact lt_irrefl _ this
    refine ⟨h0, hn, ?_⟩
    intro j hj hlo hhi hne
    rcases Nat.lt_or_ge j i with hji | hij
    · have hs : i - j - 1 < o := by omega
      have := (hall (i - j - 1) hs).2
      have hq : i - (i - j - 1 + 1) = j := by omega
      rwa [hq] at this
    · have hji : i < j := by omega
      have hs : j - i - 1 < o := by omega
      have := (hall (j - i - 1) hs).1
      have hq : min (i + (j - i - 1 + 1)) (closes.length - 1) = j := by omega
      rwa [hq] at this
  · rintro ⟨h0, hn, hw⟩
    refine ⟨by omega, ?_⟩
    intro s hs
    constructor
    · have hj : min (i + (s + 1)) (closes.length - 1) < closes.length := by omega
      have hlo : i - o ≤ min (i + (s + 1)) (closes.length - 1) := by omega
      have hhi : min (i + (s + 1)) (closes.length - 1) ≤ i + o := by omega
      have hne : min (i + (s + 1)) (closes.length - 1) ≠ i := by omega
      exact hw _ hj hlo hhi hne
    · have hj : i - (s + 1) < closes.length := by omega
      have hlo : i - o ≤ i - (s + 1) := by omega
      have hhi : i - (s + 1) ≤ i + o := by omega
      have hne : i - (s + 1) ≠ i := by omega
      exact hw _ hj hlo hhi hne

theorem mem_argrelmin_iff (closes : List F) (o i : ℕ) (ho : 1 ≤ o) :
    i ∈ argrelminIdx closes o ↔
      (0 < i ∧ i + 1 < closes.length ∧
        ∀ j, j < closes.length → i - o ≤ j → j ≤ i + o → j ≠ i →
          closes.getD i 0 < closes.getD j 0) := by
  rw [argrelminIdx, List.mem_filter, List.mem_range, isArgRelMin_eq_true_iff]
  constructor
  · rintro ⟨hin, hall⟩
    have h0 : 0 < i := by
      by_contra h0
      have hi0 : i = 0 := by omega
      have := (hall 0 ho).2
      rw [hi0] at this
      exact lt_irrefl _ this
    have hn : i + 1 < closes.length := by
      by_contra hn
      have hmin : min (i + (0 + 1)) (closes.length - 1) = i := by omega
      have := (hall 0 ho).1
      rw [hmin] at this
      exact lt_irrefl _ this
    refine ⟨h0, hn, ?_⟩
    intro j hj hlo hhi hne
    rcases Nat.lt_or_ge j i with hji | hij
    · have hs : i - j - 1 < o := by omega
      have := (hall (i - j - 1) hs).2
      have hq : i - (i - j - 1 + 1) = j := by omega
      rwa [hq] at this
    · have hji : i < j := by omega
      have hs : j - i - 1 < o := by omega
      have := (hall (j - i - 1) hs).1
      have hq : min (i + (j - i - 1 + 1)) (closes.length - 1) = j := by omega
      rwa [hq] at this
  · rintro ⟨h0, hn, hw⟩
    refine ⟨by omega, ?_⟩
    intro s hs
    constructor
    · have hj : min (i + (s + 1)) (closes.length - 1) < closes.length := by omega
      have hlo : i - o ≤ min (i + (s + 1)) (closes.length - 1) := by omega
      have hhi : min (i + (s + 1)) (closes.length - 1) ≤ i + o := by omega
      have hne : min (i + (s + 1)) (closes.length - 1) ≠ i := by omega
      exact hw _ hj hlo hhi hne
    · have hj : i - (s + 1) < closes.length := by omega
      have hlo : i - o ≤ i - (s + 1) := by omega
      have hhi : i - (s + 1) ≤ i + o := by omega
      have hne : i - (s + 1) ≠ i := by omega
      exact hw _ hj hlo hhi hne

/-- C3 (amended).  With the boundary-clipping semantics of the extrema
detector: an index is reported as a peak if and only if it is interior
(`0 < i < length - 1`) and its close strictly exceeds the close at every
other existing index within distance 5; troughs symmetrically; hence ties
never qualify, no index is both a peak and a trough, and both output
sequences are in strictly increasing (chronological) order. -/
theorem turning_points_spec (closes : List ℚ) :
    (∀ i, i ∈ argrelmaxIdx closes 5 ↔
      (0 < i ∧ i + 1 < closes.length ∧
        ∀ j, j < closes.length → i - 5 ≤ j → j ≤ i + 5 → j ≠ i →
          closes.getD j 0 < closes.getD i 0)) ∧
    (∀ i, i ∈ argrelminIdx closes 5 ↔
      (0 < i ∧ i + 1 < closes.length ∧
        ∀ j, j < closes.length → i - 5 ≤ j → j ≤ i + 5 → j ≠ i →
          closes.getD i 0 < closes.getD j 0)) ∧
    (∀ i, ¬ (i ∈ argrelmaxIdx closes 5 ∧ i ∈ argrelminIdx closes 5)) ∧
    (argrelmaxIdx closes 5).Pairwise (· < ·) ∧
    (argrelminIdx closes 5).Pairwise (· < ·) := by
  refine ⟨fun i => mem_argrelmax_iff closes 5 i (by omega),
    fun i => mem_argrelmin_iff closes 5 i (by omega), ?_, ?_, ?_⟩
  · rintro i ⟨hmax, hmin⟩
    obtain ⟨h0, hn, hwmax⟩ := (mem_argrelmax_iff closes 5 i (by omega)).mp hmax
    obtain ⟨-, -, hwmin⟩ := (mem_argrelmin_iff closes 5 i (by omega)).mp hmin
    have h1 := hwmax (i + 1) hn (by omega) (by omega) (by omega)
    have h2 := hwmin (i + 1) hn (by omega) (by omega) (by omega)
    exact lt_asymm h1 h2
  · exact (List.pairwise_lt_range _).filter _
  · exact (List.pairwise_lt_range _).filter _

/-- Counterexample to C3 as stated: on the three-bar series `[1, 3, 2]` the
detector reports index 1 as a peak even though that index does not have
`order = 5` neighbors on both sides (`5 ≤ 1` fails); boundary-clipped
comparisons let it qualify. -/
theorem turning_points_clip_counterexample :
    1 ∈ argrelmaxIdx [(1:ℚ), 3, 2] 5 ∧
      ¬ (5 ≤ (1:ℕ) ∧ (1:ℕ) + 5 ≤ [(1:ℚ), 3, 2].length - 1) := by
  constructor
  · refine (mem_argrelmax_iff [(1:ℚ), 3, 2] 5 1 (by omega)).mpr
      ⟨by omega, by simp, ?_⟩
    intro j hj hlo hhi hne
    simp only [List.length_cons, List.length_nil] at hj
    interval_cases j
    · norm_num [List.getD]
    · exact absurd rfl hne
    · norm_num [List.getD]
  · simp

/-! ## Claim C4: regression slopes on strictly increasing series

The ordinary-least-squares slope of a strictly increasing window is positive
(a strict Chebyshev-type sum inequality), but it need not exceed the fixed
`0.001` classification threshold, so such a series can be classified
Sideways. -/

theorem list_sum_getD (l : List F) :
    l.sum = ∑ i ∈ Finset.range l.length, l.getD i 0 := by
  induction l with
  | nil => simp
  | cons a l ih =>
    rw [List.sum_cons, List.length_cons, Finset.sum_range_succ']
    simp only [List.getD_cons_succ, List.getD_cons_zero]
    rw [ih]
    ring

theorem getD_map_range {n i : ℕ} (f : ℕ → F) (h : i < n) :
    ((List.range n).map f).getD i 0 = f i := by
  rw [List.getD_eq_getElem _ _ (by simpa using h)]
  simp

theorem sum_range_cast (n : ℕ) :
    ∑ i ∈ Finset.range n, (i : F) = (n : F) * ((n : F) - 1) / 2 := by
  induction n with
  | zero => simp
  | succ m ih =>
    rw [Finset.sum_range_succ, ih]
    push_cast
    ring

theorem cheb_key (y : ℕ → F) (m : ℕ) :
    ∑ i ∈ Finset.range m, ((m : F) - i) * (y m - y i) =
      (m : F) * (m : F) * y m - (∑ i ∈ Finset.range m, (i : F)) * y m -
        (m : F) * (∑ i ∈ Finset.range m, y i) +
        ∑ i ∈ Finset.range m, (i : F) * y i := by
  have hterm : ∀ i ∈ Finset.range m, ((m : F) - i) * (y m - y i) =
      (m : F) * y m - (m : F) * y i - ((i : F) * y m - (i : F) * y i) :=
    fun i _ => by ring
  rw [Finset.sum_congr rfl hterm]
  simp only [Finset.sum_sub_distrib, Finset.sum_const, Finset.card_range,
    nsmul_eq_mul, ← Finset.mul_sum, ← Finset.sum_mul]
  ring

theorem cheb_nonneg (y : ℕ → F) :
    ∀ n, (∀ i j, i < j → j < n → y i < y j) →
      (∑ i ∈ Finset.range n, (i : F)) * (∑ i ∈ Finset.range n, y i) ≤
        (n : F) * ∑ i ∈ Finset.range n, (i : F) * y i := by
  intro n
  induction n with
  | zero => intro _; simp
  | succ m ih =>
    intro hm
    have IH := ih (fun i j a b => hm i j a (Nat.lt_succ_of_lt b))
    have key := cheb_key y m
    have hpos : 0 ≤ ∑ i ∈ Finset.range m, ((m : F) - i) * (y m - y i) := by
      apply Finset.sum_nonneg
      intro i hi
      rw [Finset.mem_range] at hi
      have h1 : (i : F) < (m : F) := by exact_mod_cast hi
      have h2 : y i < y m := hm i m hi (Nat.lt_succ_self m)
      exact mul_nonneg (le_of_lt (sub_pos.mpr h1)) (le_of_lt (sub_pos.mpr h2))
    rw [Finset.sum_range_succ, Finset.sum_range_succ, Finset.sum_range_succ]
    push_cast
    nlinarith [IH, hpos, key]

theorem cheb_strict (y : ℕ → F) (n : ℕ) (hn : 2 ≤ n)
    (hm : ∀ i j, i < j → j < n → y i < y j) :
    (∑ i ∈ Finset.range n, (i : F)) * (∑ i ∈ Finset.range n, y i) <
      (n : F) * ∑ i ∈ Finset.range n, (i : F) * y i := by
  obtain ⟨m, rfl⟩ : ∃ m, n = m + 1 := ⟨n - 1, by omega⟩
  have hm1 : 1 ≤ m := by omega
  have IH := cheb_nonneg y m (fun i j a b => hm i j a (Nat.lt_succ_of_lt b))
  have key := cheb_key y m
  have hpos : 0 < ∑ i ∈ Finset.range m, ((m : F) - i) * (y m - y i) := by
    apply Finset.sum_pos'
    · intro i hi
      rw [Finset.mem_range] at hi
      have h1 : (i : F) < (m : F) := by exact_mod_cast hi
      have h2 : y i < y m := hm i m hi (Nat.lt_succ_self m)
      exact mul_nonneg (le_of_lt (sub_pos.mpr h1)) (le_of_lt (sub_pos.mpr h2))
    · refine ⟨0, Finset.mem_range.mpr (by omega), ?_⟩
      have h1 : (0 : F) < (m : F) := by exact_mod_cast hm1
      have h2 : y 0 < y m := hm 0 m (by omega) (Nat.lt_succ_self m)
      have hz : (((0:ℕ)) : F) = 0 := Nat.cast_zero
      rw [hz, sub_zero]
      exact mul_pos h1 (sub_pos.mpr h2)
  rw [Finset.sum_range_succ, Finset.sum_range_succ, Finset.sum_range_succ]
  push_cast
  nlinarith [IH, hpos, key]

theorem denom_pos (n : ℕ) (hn : 2 ≤ n) :
    0 < ∑ i ∈ Finset.range n, ((i : F) - ((n : F) - 1) / 2) ^ 2 := by
  apply Finset.sum_pos'
  · intro i _
    exact sq_nonneg _
  · refine ⟨0, Finset.mem_range.mpr (by omega), ?_⟩
    have h2 : (2 : F) ≤ (n : F) := by exact_mod_cast hn
    have hx : 0 < ((n : F) - 1) / 2 := by linarith
    have : ((0 : F) - ((n : F) - 1) / 2) ^ 2 = (((n : F) - 1) / 2) ^ 2 := by
      ring
    rw [Nat.cast_zero, this]
    exact pow_pos hx 2

theorem olsSlope_pos (ys : List F) (h2 : 2 ≤ ys.length)
    (hm : ∀ i j, i < j → j < ys.length → ys.getD i 0 < ys.getD j 0) :
    0 < olsSlope ys := by
  have hn0 : (0 : F) < (ys.length : F) := by
    exact_mod_cast (by omega : 0 < ys.length)
  have hne : (ys.length : F) ≠ 0 := ne_of_gt hn0
  simp only [olsSlope, sumRange_eq_finset]
  apply div_pos
  · have hsum : ∑ i ∈ Finset.range ys.length,
        ((i : F) - ((ys.length : F) - 1) / 2) *
          (ys.getD i 0 - ys.sum / (ys.length : F)) =
        (∑ i ∈ Finset.range ys.length, (i : F) * ys.getD i 0) -
          ((ys.length : F) * ((ys.length : F) - 1) / 2) *
            (∑ i ∈ Finset.range ys.length, ys.getD i 0) / (ys.length : F) := by
      rw [list_sum_getD ys]
      have hsplit : ∀ i ∈ Finset.range ys.length,
          ((i : F) - ((ys.length : F) - 1) / 2) *
              (ys.getD i 0 -
                (∑ j ∈ Finset.range ys.length, ys.getD j 0) / (ys.length : F)) =
            (i : F) * ys.getD i 0 -
              (((ys.length : F) - 1) / 2) * ys.getD i 0 -
              (i : F) *
                ((∑ j ∈ Finset.range ys.length, ys.getD j 0) / (ys.length : F)) +
              (((ys.length : F) - 1) / 2) *
                ((∑ j ∈ Finset.range ys.length, ys.getD j 0) / (ys.length : F)) :=
        fun i _ => by ring
      rw [Finset.sum_congr rfl hsplit]
      simp only [Finset.sum_add_distrib, Finset.sum_sub_distrib,
        Finset.sum_const, Finset.card_range, nsmul_eq_mul, ← Finset.mul_sum,
        ← Finset.sum_mul]
      rw [sum_range_cast]
      field_simp
      ring
    rw [hsum]
    have hstrict := cheb_strict (fun i => ys.getD i 0) ys.length h2 hm
    rw [sum_range_cast] at hstrict
    rw [sub_pos, div_lt_iff hn0]
    calc ((ys.length : F) * ((ys.length : F) - 1) / 2) *
          (∑ i ∈ Finset.range ys.length, ys.getD i 0)
        = (ys.length : F) * ((ys.length : F) - 1) / 2 *
          ∑ i ∈ Finset.range ys.length, (fun i => ys.getD i 0) i := by simp
      _ < (ys.length : F) *
            ∑ i ∈ Finset.range ys.length, (i : F) * (fun i => ys.getD i 0) i :=
          hstrict
      _ = (∑ i ∈ Finset.range ys.length, (i : F) * ys.getD i 0) *
            (ys.length : F) := by simp [mul_comm]
  · exact denom_pos ys.length h2

theorem windowSlice_length (closes : List F) (lookback k : ℕ)
    (h : lookback + k ≤ closes.length) :
    (windowSlice closes lookback (lookback + k)).length = lookback := by
  simp only [windowSlice, List.length_take, List.length_drop]
  omega

theorem windowSlice_getD (closes : List F) (lookback k a : ℕ)
    (hk : lookback + k ≤ closes.length) (ha : a < lookback) :
    (windowSlice closes lookback (lookback + k)).getD a 0 =
      closes.getD (k + a) 0 := by
  have h1 : a < (windowSlice closes lookback (lookback + k)).length := by
    rw [windowSlice_length closes lookback k hk]
    exact ha
  have h2 : k + a < closes.length := by omega
  rw [List.getD_eq_getElem _ _ h1, List.getD_eq_getElem _ _ h2]
  simp only [windowSlice, Nat.add_sub_cancel_left, List.getElem_take,
    List.getElem_drop]

theorem getLastD_mem {α : Type} (l : List α) (d : α) (h : l ≠ []) :
    l.getLastD d ∈ l := by
  induction l generalizing d with
  | nil => exact absurd rfl h
  | cons a l ih =>
    cases l with
    | nil => simp
    | cons b m =>
      have := ih a (by simp)
      simpa using Or.inr this

/-- C4 (amended).  For a strictly increasing close series every TrendSegment
produced by analyze_trends (window of at least two points) has a strictly
positive slope, and whenever the series is longer than the lookback the most
recent segment also has positive slope, so the classification derived from
it is never Downtrend: it is Uptrend precisely when that slope exceeds the
0.001 threshold, and Sideways otherwise. -/
theorem trend_slopes_on_increasing (closes : List ℚ) (dates : List ℤ)
    (lookback : ℕ) (hlb : 2 ≤ lookback)
    (hmono : closes.Chain' (· < ·)) :
    (∀ t ∈ analyze_trends closes dates lookback, 0 < t.slope) ∧
    (lookback < closes.length →
      0 < ((analyze_trends closes dates lookback).getLastD default).slope ∧
      (classifySlope
          ((analyze_trends closes dates lookback).getLastD default).slope =
            "Uptrend" ↔
        1 / 1000 <
          ((analyze_trends closes dates lookback).getLastD default).slope) ∧
      classifySlope
          ((analyze_trends closes dates lookback).getLastD default).slope ≠
        "Downtrend") := by
  have hmono' : ∀ i j, i < j → j < closes.length →
      closes.getD i 0 < closes.getD j 0 := by
    intro i j hij hj
    have hp := (List.chain'_iff_pairwise.mp hmono)
    have hi : i < closes.length := lt_trans hij hj
    rw [List.getD_eq_getElem _ _ hi, List.getD_eq_getElem _ _ hj]
    exact List.pairwise_iff_getElem.mp hp i j hi hj hij
  have hslope : ∀ t ∈ analyze_trends closes dates lookback, 0 < t.slope := by
    intro t ht
    simp only [analyze_trends, List.mem_map, List.mem_range] at ht
    obtain ⟨k, hk, rfl⟩ := ht
    have hkl : lookback + k ≤ closes.length := by omega
    apply olsSlope_pos
    · rw [windowSlice_length closes lookback k hkl]
      exact hlb
    · intro a b hab hb
      rw [windowSlice_length closes lookback k hkl] at hb
      rw [windowSlice_getD closes lookback k a hkl (by omega),
        windowSlice_getD closes lookback k b hkl hb]
      exact hmono' (k + a) (k + b) (by omega) (by omega)
  refine ⟨hslope, ?_⟩
  intro hlen
  have hne : analyze_trends closes dates lookback ≠ [] := by
    apply List.ne_nil_of_length_pos
    simp only [analyze_trends, List.length_map, List.length_range]
    omega
  have h0 := hslope _ (getLastD_mem _ default hne)
  refine ⟨h0, ?_, ?_⟩
  · by_cases hgt :
      1 / 1000 < ((analyze_trends closes dates lookback).getLastD default).slope
    · rw [classifySlope, if_pos hgt]
      exact ⟨fun _ => hgt, fun _ => rfl⟩
    · rw [classifySlope, if_neg hgt, if_neg (by linarith)]
      constructor
      · intro hx
        exact absurd hx (by decide)
      · intro hx
        exact absurd hx hgt
  · by_cases hgt :
      1 / 1000 < ((analyze_trends closes dates lookback).getLastD default).slope
    · rw [classifySlope, if_pos hgt]
      decide
    · rw [classifySlope, if_neg hgt, if_neg (by linarith)]
      decide

/-- Concrete evaluation: `[1, 2, 3]` is a strictly increasing series. -/
theorem chain_example : List.Chain' (· < ·) [(1:ℚ), 2, 3] := by
  norm_num [List.chain'_cons]

/-- Witness for C4 (amended) at a three-bar series with lookback 2. -/
theorem trend_slopes_on_increasing_witness :
    (2 ≤ 2 ∧ List.Chain' (· < ·) [(1:ℚ), 2, 3]) ∧
    ((∀ t ∈ analyze_trends [(1:ℚ), 2, 3] [0, 1, 2] 2, 0 < t.slope) ∧
      (2 < [(1:ℚ), 2, 3].length →
        0 < ((analyze_trends [(1:ℚ), 2, 3] [0, 1, 2] 2).getLastD default).slope ∧
        (classifySlope
            ((analyze_trends [(1:ℚ), 2, 3] [0, 1, 2] 2).getLastD default).slope =
              "Uptrend" ↔
          1 / 1000 <
            ((analyze_trends [(1:ℚ), 2, 3] [0, 1, 2] 2).getLastD default).slope) ∧
        classifySlope
            ((analyze_trends [(1:ℚ), 2, 3] [0, 1, 2] 2).getLastD default).slope ≠
          "Downtrend")) :=
  ⟨⟨by decide, chain_example⟩,
    trend_slopes_on_increasing [(1:ℚ), 2, 3] [0, 1, 2] 2 (by decide)
      chain_example⟩

/-- The OLS slope of the exactly affine series `j ↦ d * j` is `d`. -/
theorem olsSlope_affine (n : ℕ) (hn : 2 ≤ n) (d : F) :
    olsSlope (List.map (fun j : ℕ => d * (j : F)) (List.range n)) = d := by
  have hn0 : (0 : F) < (n : F) := by exact_mod_cast (by omega : 0 < n)
  have hne : (n : F) ≠ 0 := ne_of_gt hn0
  have hlen : (List.map (fun j : ℕ => d * (j : F)) (List.range n)).length = n := by simp
  have hsum : (List.map (fun j : ℕ => d * (j : F)) (List.range n)).sum =
      d * ((n : F) * ((n : F) - 1) / 2) := by
    show sumRange n (fun j : ℕ => d * (j : F)) = _
    rw [sumRange_eq_finset, ← Finset.mul_sum, sum_range_cast]
  have hD := @denom_pos F _ n hn
  simp only [olsSlope, hlen, sumRange_eq_finset, hsum]
  have hnum : ∑ i ∈ Finset.range n,
      (((i : F) - ((n : F) - 1) / 2) *
        ((List.map (fun j : ℕ => d * (j : F)) (List.range n)).getD i 0 -
          d * ((n : F) * ((n : F) - 1) / 2) / (n : F))) =
      d * ∑ i ∈ Finset.range n, ((i : F) - ((n : F) - 1) / 2) ^ 2 := by
    rw [Finset.mul_sum]
    apply Finset.sum_congr rfl
    intro i hi
    rw [getD_map_range _ (Finset.mem_range.mp hi)]
    have hc : d * ((n : F) * ((n : F) - 1) / 2) / (n : F) =
        d * (((n : F) - 1) / 2) := by
      field_simp
      ring
    rw [hc]
    ring
  rw [hnum, mul_div_assoc, div_self (ne_of_gt hD), mul_one]

/-- Counterexample to C4 as stated: the series `0, 1/2000, 2/2000, …` of
91 bars is strictly monotonically increasing and long enough for the
90-bar lookback, yet the regression slope of the most recent (only) segment
is `1/2000 = 0.0005`, which does not exceed the `0.001` threshold, so the
trend classification is Sideways, not Uptrend. -/
theorem trend_threshold_counterexample :
    List.Chain' (· < ·)
      (List.map (fun j : ℕ => (j : ℚ) / 2000) (List.range 91)) ∧
    90 < (List.map (fun j : ℕ => (j : ℚ) / 2000) (List.range 91)).length ∧
    ((analyze_trends (List.map (fun j : ℕ => (j : ℚ) / 2000) (List.range 91))
        (List.map (fun j : ℕ => (j : ℤ)) (List.range 91)) 90).getLastD
        default).slope = 1 / 2000 ∧
    classifySlope
      ((analyze_trends (List.map (fun j : ℕ => (j : ℚ) / 2000) (List.range 91))
          (List.map (fun j : ℕ => (j : ℤ)) (List.range 91)) 90).getLastD
          default).slope = "Sideways" := by
  have hwin : windowSlice
      (List.map (fun j : ℕ => (j : ℚ) / 2000) (List.range 91)) 90 90 =
      List.map (fun j : ℕ => (1 / 2000 : ℚ) * (j : ℚ)) (List.range 90) := by
    simp only [windowSlice, Nat.sub_self, List.drop_zero]
    rw [(List.map_take (fun j : ℕ => (j : ℚ) / 2000) (List.range 91) 90).symm,
      List.take_range 90 91]
    have hmin : min 90 91 = 90 := by norm_num
    rw [hmin]
    apply List.map_congr_left
    intro a _
    ring
  have hslope : olsSlope (windowSlice
      (List.map (fun j : ℕ => (j : ℚ) / 2000) (List.range 91)) 90 90) =
      1 / 2000 := by
    rw [hwin]
    exact olsSlope_affine 90 (by norm_num) (1 / 2000)
  have hrun : (analyze_trends
      (List.map (fun j : ℕ => (j : ℚ) / 2000) (List.range 91))
      (List.map (fun j : ℕ => (j : ℤ)) (List.range 91)) 90).getLastD default =
      ⟨(List.map (fun j : ℕ => (j : ℤ)) (List.range 91)).getD 90 0,
        olsSlope (windowSlice
          (List.map (fun j : ℕ => (j : ℚ) / 2000) (List.range 91)) 90 90),
        olsIntercept (windowSlice
          (List.map (fun j : ℕ => (j : ℚ) / 2000) (List.range 91)) 90 90)⟩ := by
    simp only [analyze_trends, List.length_map, List.length_range]
    rw [show (91 - 90 : ℕ) = 1 by norm_num, show List.range 1 = [0] by decide]
    simp only [List.map_cons, List.map_nil, Nat.add_zero]
    rfl
  refine ⟨?_, by simp, ?_, ?_⟩
  · rw [List.chain'_map]
    rw [show (91 : ℕ) = 90 + 1 from rfl, List.chain'_range_succ]
    intro m _
    have hc : (m : ℚ) < ((m + 1 : ℕ) : ℚ) := by exact_mod_cast Nat.lt_succ_self m
    push_cast at hc ⊢
    gcongr
  · rw [hrun]
    exact hslope
  · rw [hrun]
    show classifySlope (olsSlope _) = _
    rw [hslope, classifySlope, if_neg (by norm_num), if_neg (by norm_num)]
    rfl

end TradingBot
